import Mathlib

/-!
Shallow embedding of the cat-thief-game dialog text pipeline:
  - src/model/pretty_string.rs : markup tokenizer (lmm / tokenize), rule
    resolution (resolve_rules) and the parse driver, plus the Attributes
    style type and PrettyString.len;
  - src/drawable/dialog.rs : the line-wrap layout engine inside
    DialogDrawable.render (newline splitting, greedy per-character wrap
    loop, line assembly).

Rust strings are modelled as List Char (the sources only ever use ASCII
markup characters, where byte indices and char indices coincide); u32 and
usize quantities are modelled as Nat.  Rust panics (slice out of bounds,
Option.unwrap on None, explicit panic! and expect) are modelled as the
error side of Except, with one constructor per distinct panic site.
Divergence of the wrap loop is modelled with fuel: the loop answers
outOfFuel for every fuel value exactly when the Rust loop never exits.
-/

deriving instance DecidableEq for Except

/-- Engine colors used by the dialog sources.  The engine type has more
values; the claims only mention BLUE (the one rule in RULES), RED and the
dialog box colors. -/
inductive Color where
  | BLUE
  | RED
  | WHITE
  | BLACK
  deriving DecidableEq, Repr

/-- Fonts are opaque engine handles; we model them by an id. -/
structure Font where
  id : Nat
  deriving DecidableEq, Repr

/-- pretty_string.rs: `pub struct Attributes { font: Option<&Font>, color: Option<Color> }`. -/
structure Attributes where
  font : Option Font := none
  color : Option Color := none
  deriving DecidableEq, Repr

instance : Inhabited Attributes := ⟨{}⟩

/-- pretty_string.rs `Attributes::override_with`: each field comes from
`other` when set there, else from `self` (Rust `other.font.or(self.font)`). -/
def Attributes.override_with (self other : Attributes) : Attributes :=
  { font := other.font.or self.font
    color := other.color.or self.color }

/-- pretty_string.rs `RULES`: the static rule table, holding exactly the
rule "blue" mapping to color BLUE.  Modelled as a lookup function; the
parser is parameterised by such a table so that spec examples with other
tables can also be stated. -/
def RULES : String → Option Attributes :=
  fun s => if s = "blue" then some { color := some Color.BLUE } else none

/-- pretty_string.rs: `pub struct PrettyString(pub Vec<(String, Attributes)>)`. -/
structure PrettyString where
  runs : List (String × Attributes)
  deriving DecidableEq, Repr

/-- pretty_string.rs `PrettyString::len`: map each run to the length of its
text and fold with addition from 0. -/
def PrettyString.len (self : PrettyString) : Nat :=
  (self.runs.map (fun run => run.1.length)).foldl (fun a b => a + b) 0

/-- Tokenizer states of the left-to-right maximal-munch scanner `lmm`. -/
inductive State where
  | Start
  | Open (s : String)
  | DoubleOpen
  | Close
  | OpenClose

/-- Tokens produced by the tokenizer in pretty_string.rs. -/
inductive Token where
  | StartSegment (s : String)
  | EndSegment
  | Text (s : String)
  deriving DecidableEq, Repr

/-- The distinct panic sites of the parser module:
  - sliceOOB: `&text[1..]` (and `chars().nth(0).unwrap()`) on an empty
    string at the top of `lmm`;
  - missingRuleName: `panic!("Missing rule name in dialog string")`;
  - missingRule r: `.expect("Missing rule ...")` in resolve_rules;
  - ranOutOfRules: `rules.pop().expect("Ran out of rules to pop")`. -/
inductive Panic where
  | sliceOOB
  | missingRuleName
  | missingRule (r : String)
  | ranOutOfRules
  deriving DecidableEq, Repr

/-- pretty_string.rs `lmm`: one maximal-munch step.  The Rust function
first computes `rest = &text[1..]` and `text.chars().nth(0).unwrap()`,
both of which panic when `text` is empty, hence the first equation.  The
Rust pattern guards `if st.is_empty()` become nested ifs whose else
branches fall through to the catch-all `(Open(st), ch)` arm. -/
def lmm : List Char → State → Except Panic (Token × List Char)
  | [], _ => .error .sliceOOB
  | ch :: rest, state =>
    match state with
    | .Start =>
      if ch = '<' then lmm rest (.Open "")
      else if ch = '>' then lmm rest .Close
      else .ok (.Text ch.toString, rest)
    | .Open st =>
      if st.isEmpty then
        if ch = '<' then lmm rest .DoubleOpen
        else if ch = '>' then lmm rest .OpenClose
        else if ch = ':' then .error .missingRuleName
        else lmm rest (.Open (st.push ch))
      else
        if ch = ':' then .ok (.StartSegment st, rest)
        else lmm rest (.Open (st.push ch))
    | .Close => .ok (.EndSegment, ch :: rest)
    | .DoubleOpen => .ok (.Text "<", ch :: rest)
    | .OpenClose => .ok (.Text ">", ch :: rest)

/-- A successful lmm step never returns more input than it was given. -/
theorem lmm_length_le (text : List Char) (st : State) (tok : Token) (rest : List Char)
    (h : lmm text st = .ok (tok, rest)) : rest.length ≤ text.length := by
  induction text generalizing st with
  | nil => simp [lmm] at h
  | cons ch tl ih =>
    cases st with
    | Start =>
      by_cases h1 : ch = '<'
      · simp only [lmm, h1, if_pos rfl] at h
        exact le_trans (ih _ h) (Nat.le_succ _)
      · by_cases h2 : ch = '>'
        · simp only [lmm, h1, h2, if_neg, if_pos, ite_true, ite_false] at h
          exact le_trans (ih _ h) (Nat.le_succ _)
        · simp only [lmm, h1, h2, ite_false] at h
          cases h
          exact Nat.le_succ _
    | Open s =>
      by_cases hs : s.isEmpty
      · by_cases h1 : ch = '<'
        · simp only [lmm, hs, h1, ite_true] at h
          exact le_trans (ih _ h) (Nat.le_succ _)
        · by_cases h2 : ch = '>'
          · simp only [lmm, hs, h1, h2, ite_true, ite_false] at h
            exact le_trans (ih _ h) (Nat.le_succ _)
          · by_cases h3 : ch = ':'
            · subst h3
              simp [lmm, hs] at h
            · simp only [lmm, hs, h1, h2, h3, ite_true, ite_false] at h
              exact le_trans (ih _ h) (Nat.le_succ _)
      · by_cases h3 : ch = ':'
        · simp only [lmm, hs, h3, ite_true, ite_false] at h
          cases h
          exact Nat.le_succ _
        · simp only [lmm, hs, h3, ite_false] at h
          exact le_trans (ih _ h) (Nat.le_succ _)
    | Close =>
      simp only [lmm] at h
      cases h
      exact le_refl _
    | DoubleOpen =>
      simp only [lmm] at h
      cases h
      exact le_refl _
    | OpenClose =>
      simp only [lmm] at h
      cases h
      exact le_refl _

/-- From the Start state a successful lmm step consumes at least one
character: the returned rest is strictly shorter. -/
theorem lmm_start_length_lt (text : List Char) (tok : Token) (rest : List Char)
    (h : lmm text .Start = .ok (tok, rest)) : rest.length < text.length := by
  cases text with
  | nil => simp [lmm] at h
  | cons ch tl =>
    by_cases h1 : ch = '<'
    · simp only [lmm, h1, ite_true] at h
      exact Nat.lt_succ_of_le (lmm_length_le _ _ _ _ h)
    · by_cases h2 : ch = '>'
      · simp only [lmm, h1, h2, ite_true, ite_false] at h
        exact Nat.lt_succ_of_le (lmm_length_le _ _ _ _ h)
      · simp only [lmm, h1, h2, ite_false] at h
        cases h
        exact Nat.lt_succ_self _

/-- Recursion bound for the tokenize and parse loops: each lmm step
consumes at least one character (lmm_start_length_lt), so the length of
the remaining input is a strictly decreasing variant.  The bound is
carried as a structural fuel argument together with the proof that it
dominates the input length, which keeps every function computable by the
kernel and leaves no unreachable fuel-exhaustion branch. -/
def tokenizeAux : (fuel : Nat) → (text : List Char) → text.length ≤ fuel →
    Except Panic (List Token)
  | _, [], _ => .ok []
  | 0, _ :: _, h => absurd h (by simp)
  | fuel + 1, ch :: tl, h =>
    match hstep : lmm (ch :: tl) .Start with
    | .error e => .error e
    | .ok (tok, rest) =>
      match tokenizeAux fuel rest
          (Nat.le_of_lt_succ (Nat.lt_of_lt_of_le (lmm_start_length_lt _ _ _ hstep) h)) with
      | .error e => .error e
      | .ok toks => .ok (tok :: toks)

/-- pretty_string.rs `tokenize`: repeatedly take one lmm step from the
Start state until the input is exhausted, collecting the tokens.  The Rust
version is a generator driven lazily by the parse loop; the eager list of
tokens is used only for claims that already assume tokenization succeeds,
and the lazy interleaving is modelled separately by parseLoop below. -/
def tokenize (text : List Char) : Except Panic (List Token) :=
  tokenizeAux text.length text (Nat.le_refl _)

/-- Helper for resolve_rules: fold the rule names over an accumulator,
looking each one up in the table and stopping at the first missing rule
(the Rust `.expect` panic). -/
def resolveFrom (table : String → Option Attributes) (attrs : Attributes) :
    List String → Except Panic Attributes
  | [] => .ok attrs
  | r :: rs =>
    match table r with
    | some a => resolveFrom table (attrs.override_with a) rs
    | none => .error (.missingRule r)

/-- pretty_string.rs `resolve_rules`: fold the active rule names, in push
order, over `Attributes::default()` with override_with, looking each name
up in the rule table. -/
def resolve_rules (table : String → Option Attributes) (rules : List String) :
    Except Panic Attributes :=
  resolveFrom table {} rules

/-- One parse driver step for a single token, updating the accumulated
segments, the rule stack and the pending literal segment, exactly as the
match arms of pretty_string.rs `parse` do.  The rule stack is a Vec pushed
and popped at the back: push is `++ [name]`, pop removes the last element
and panics (ranOutOfRules) when the stack is empty.  The literal segment
is flushed, with the styles resolved from the current stack, only when it
is nonempty. -/
def parseStep (table : String → Option Attributes) (tok : Token)
    (segments : List (String × Attributes)) (rules : List String) (segment : String) :
    Except Panic (List (String × Attributes) × List String × String) :=
  match tok with
  | .StartSegment name =>
    if segment.isEmpty then
      .ok (segments, rules ++ [name], segment)
    else
      match resolve_rules table rules with
      | .error e => .error e
      | .ok attrs => .ok (segments ++ [(segment, attrs)], rules ++ [name], "")
  | .EndSegment =>
    let flushed :=
      if segment.isEmpty then
        Except.ok (segments, "")
      else
        match resolve_rules table rules with
        | .error e => .error e
        | .ok attrs => .ok (segments ++ [(segment, attrs)], "")
    match flushed with
    | .error e => .error e
    | .ok (segments, segment) =>
      if rules.isEmpty then .error .ranOutOfRules
      else .ok (segments, rules.dropLast, segment)
  | .Text text => .ok (segments, rules, segment ++ text)

/-- The final step of pretty_string.rs `parse` after the token loop: flush
the pending segment when nonempty and wrap the segments. -/
def parseFinish (table : String → Option Attributes)
    (segments : List (String × Attributes)) (rules : List String) (segment : String) :
    Except Panic PrettyString :=
  if segment.isEmpty then .ok ⟨segments⟩
  else
    match resolve_rules table rules with
    | .error e => .error e
    | .ok attrs => .ok ⟨segments ++ [(segment, attrs)]⟩

/-- pretty_string.rs `parse`, faithfully interleaved with tokenization:
the Rust `for token in tokenize(string)` drives the generator lazily, so a
tokenizer panic at token i+1 happens after token i has been processed and
a parse panic at token i happens before token i+1 is scanned. -/
def parseLoopAux (table : String → Option Attributes) :
    (fuel : Nat) → (text : List Char) → text.length ≤ fuel →
    List (String × Attributes) → List String → String → Except Panic PrettyString
  | _, [], _, segments, rules, segment => parseFinish table segments rules segment
  | 0, _ :: _, h, _, _, _ => absurd h (by simp)
  | fuel + 1, ch :: tl, h, segments, rules, segment =>
    match hstep : lmm (ch :: tl) .Start with
    | .error e => .error e
    | .ok (tok, rest) =>
      match parseStep table tok segments rules segment with
      | .error e => .error e
      | .ok (segments, rules, segment) =>
        parseLoopAux table fuel rest
          (Nat.le_of_lt_succ (Nat.lt_of_lt_of_le (lmm_start_length_lt _ _ _ hstep) h))
          segments rules segment

def parseLoop (table : String → Option Attributes) (text : List Char)
    (segments : List (String × Attributes)) (rules : List String) (segment : String) :
    Except Panic PrettyString :=
  parseLoopAux table text.length text (Nat.le_refl _) segments rules segment

/-- pretty_string.rs `parse`, generalised over the rule table. -/
def parseWith (table : String → Option Attributes) (string : String) :
    Except Panic PrettyString :=
  parseLoop table string.toList [] [] ""

/-- `PrettyString::parse`, with the static RULES table of the source. -/
def PrettyString.parse (string : String) : Except Panic PrettyString :=
  parseWith RULES string

/-- The parse driver run over an already tokenized input; equal to
parseLoop whenever tokenization succeeds (parseLoop_eq_parseTokens). -/
def parseTokens (table : String → Option Attributes) (toks : List Token)
    (segments : List (String × Attributes)) (rules : List String) (segment : String) :
    Except Panic PrettyString :=
  match toks with
  | [] => parseFinish table segments rules segment
  | tok :: rest =>
    match parseStep table tok segments rules segment with
    | .error e => .error e
    | .ok (segments, rules, segment) => parseTokens table rest segments rules segment

/-- When tokenization of the whole input succeeds, the lazily interleaved
parse loop agrees with parsing the eager token list. -/
theorem parseLoop_eq_parseTokens (table : String → Option Attributes) :
    ∀ (fuel : Nat) (text : List Char) (hf : text.length ≤ fuel)
      (toks : List Token), tokenizeAux fuel text hf = .ok toks →
        ∀ segments rules segment,
          parseLoopAux table fuel text hf segments rules segment =
            parseTokens table toks segments rules segment := by
  intro fuel
  induction fuel with
  | zero =>
    intro text hf toks h segments rules segment
    have : text = [] := List.eq_nil_of_length_eq_zero (Nat.le_zero.mp hf)
    subst this
    cases h
    rfl
  | succ fuel ih =>
    intro text hf toks h segments rules segment
    cases text with
    | nil =>
      cases h
      rfl
    | cons hd tla =>
      rw [tokenizeAux] at h
      rw [parseLoopAux]
      split at h
      · exact Except.noConfusion h
      · rename_i tok rest heq
        split at h
        · exact Except.noConfusion h
        · rename_i toks2 hrec
          injection h with h2
          subst h2
          split
          · rename_i e heq2
            rw [parseTokens, heq2]
          · rename_i s2 r2 g2 heq2
            rw [parseTokens, heq2]
            exact ih rest _ toks2 hrec s2 r2 g2

/-- dialog.rs: `Dimen`, the measured size of a piece of text. -/
structure Dimen where
  width : Nat
  height : Nat
  deriving DecidableEq, Repr

/-- dialog.rs refers to `model::pretty_string::Attribute`, a list-shaped
style (enum with Font and Color variants) that is not among the provided
source files.  Modelled from the spec: styled runs carry a list of
attributes, and the renderer scans it for Font and Color entries. -/
inductive Attribute where
  | font (f : Font)
  | color (c : Color)
  deriving DecidableEq, Repr

/-- dialog.rs `DEFAULT_FONT` (font::abyssinica::REGULAR_18). -/
def DEFAULT_FONT : Font := ⟨18⟩

/-- dialog.rs: `struct Line { height, width, segments }`. -/
structure Line where
  height : Nat
  width : Nat
  segments : List (List Char × List Attribute × Dimen)
  deriving DecidableEq, Repr

/-- `Line::default()`: all fields empty. -/
def Line.default : Line := ⟨0, 0, []⟩

/-- Rust string slice `text[start..stop]` over the char model. -/
def strSlice (text : List Char) (start stop : Nat) : List Char :=
  (text.take stop).drop start

/-- dialog.rs sets the canvas font to DEFAULT_FONT and then applies every
Font attribute of the piece in order before measuring; the effective font
is therefore the last Font attribute, defaulting to DEFAULT_FONT. -/
def effFont (attrs : List Attribute) : Font :=
  attrs.foldl (fun f a => match a with | .font g => g | .color _ => f) DEFAULT_FONT

/-- Rust `text.split("\n")`: split into the (possibly empty) chunks
between newline characters; there is always at least one chunk. -/
def splitNewlines : List Char → List (List Char)
  | [] => [[]]
  | c :: rest =>
    if c = '\n' then [] :: splitNewlines rest
    else
      match splitNewlines rest with
      | [] => [[c]]
      | p :: ps => (c :: p) :: ps

/-- dialog.rs render, flat_map stage: split the text of a run at newlines
and pair each sub-piece with the attributes of the run and a flag saying
whether a hard break follows it (`i != len - 1`). -/
def toPieces (text : List Char) (attrs : List Attribute) :
    List (List Char × List Attribute × Bool) :=
  let parts := splitNewlines text
  parts.enum.map (fun p => (p.2, attrs, decide (p.1 ≠ parts.length - 1)))

/-- Outcome of a layout computation: a value, a Rust panic (string slice
out of bounds in the wrap loop), or fuel exhaustion.  The wrap loop of
dialog.rs can genuinely fail to terminate, so it is modelled with fuel;
outOfFuel for every fuel value means the Rust loop never exits. -/
inductive LayoutRes (α : Type) where
  | outOfFuel
  | panicked
  | ok (val : α)
  deriving DecidableEq, Repr

/-- dialog.rs render, the inner greedy wrap loop, entered when the whole
piece does not fit on the current line.  The Vec of finished lines is
represented as done plus the distinguished current (last) line cur; Rust
`lines.push(Line::default())` appends cur to done and resets it.  Per
iteration the loop measures `text[start..end + 1]` (a Rust panic when
end + 1 exceeds the length, which happens for an empty piece); if it fits
on the current line it advances end and, unless `end == len - 1` now
holds, continues scanning; otherwise it flushes `text[start..end]` onto
the current line (with the width and height measured for the longer
slice), starts a fresh line, and either breaks (end == len - 1) or
restarts the scan at start = end. -/
def wrapLoop (measure : Font → List Char → Dimen) (maxWidth : Nat) (font : Font)
    (text : List Char) (attrs : List Attribute) :
    Nat → Nat → Nat → List Line → Line → LayoutRes (List Line × Line)
  | 0, _, _, _, _ => .outOfFuel
  | fuel + 1, start, end_, done, cur =>
    let len := text.length
    if end_ + 1 > len then .panicked
    else
      let d := measure font (strSlice text start (end_ + 1))
      if (cur.width + d.width ≤ maxWidth) ∧ (end_ + 1 ≠ len - 1) then
        wrapLoop measure maxWidth font text attrs fuel start (end_ + 1) done cur
      else
        let e := if cur.width + d.width ≤ maxWidth then end_ + 1 else end_
        let cur2 : Line :=
          ⟨Nat.max cur.height d.height, cur.width + d.width,
            cur.segments ++ [(strSlice text start e, attrs, d)]⟩
        if e = len - 1 then .ok (done ++ [cur2], Line.default)
        else wrapLoop measure maxWidth font text attrs fuel e e (done ++ [cur2]) Line.default

/-- dialog.rs render, fold body: lay one sub-piece out.  Measure the whole
piece; if it fits on the current line append it there, else run the wrap
loop; afterwards a hard break (newline flag) starts a fresh line. -/
def layoutPiece (measure : Font → List Char → Dimen) (maxWidth : Nat) (fuel : Nat)
    (piece : List Char × List Attribute × Bool) (done : List Line) (cur : Line) :
    LayoutRes (List Line × Line) :=
  let text := piece.1
  let attrs := piece.2.1
  let newline := piece.2.2
  let font := effFont attrs
  let d := measure font text
  let res :=
    if cur.width + d.width > maxWidth then
      wrapLoop measure maxWidth font text attrs fuel 0 0 done cur
    else
      .ok (done, ⟨Nat.max cur.height d.height, cur.width + d.width,
        cur.segments ++ [(text, attrs, d)]⟩)
  match res with
  | .ok (done2, cur2) =>
    if newline then .ok (done2 ++ [cur2], Line.default) else .ok (done2, cur2)
  | .outOfFuel => .outOfFuel
  | .panicked => .panicked

/-- dialog.rs render: fold the sub-pieces in order over the line state. -/
def layoutPieces (measure : Font → List Char → Dimen) (maxWidth : Nat) (fuel : Nat) :
    List (List Char × List Attribute × Bool) → List Line → Line →
    LayoutRes (List Line × Line)
  | [], done, cur => .ok (done, cur)
  | p :: ps, done, cur =>
    match layoutPiece measure maxWidth fuel p done cur with
    | .ok (done2, cur2) => layoutPieces measure maxWidth fuel ps done2 cur2
    | .outOfFuel => .outOfFuel
    | .panicked => .panicked

/-- dialog.rs render, the whole layout pass: flat_map every styled run
into newline sub-pieces and fold them starting from `vec![Line::default()]`
(done = [], cur = empty line); the final Vec of lines is done ++ [cur]. -/
def layoutRuns (measure : Font → List Char → Dimen) (maxWidth : Nat) (fuel : Nat)
    (runs : List (List Char × List Attribute)) : LayoutRes (List Line) :=
  let pieces := (runs.map (fun r => toPieces r.1 r.2)).flatten
  match layoutPieces measure maxWidth fuel pieces [] Line.default with
  | .ok (done, cur) => .ok (done ++ [cur])
  | .outOfFuel => .outOfFuel
  | .panicked => .panicked

/-- All the characters placed on a list of lines, in order: the
concatenation of the fragment texts of every segment of every line. -/
def linesText (lines : List Line) : List Char :=
  (lines.map (fun l => (l.segments.map (fun s => s.1)).flatten)).flatten

/-- Measurement oracle assigning every character width 1 and every text
height 1: width of a text is its character count. -/
def measureCharCount : Font → List Char → Dimen :=
  fun _ s => ⟨s.length, 1⟩

/-- Measurement oracle assigning every text, even a single character,
width 5: exercises the wrap loop when one character exceeds the budget. -/
def measureConstFive : Font → List Char → Dimen :=
  fun _ _ => ⟨5, 1⟩

/-- A concrete font for the rule-table examples of the spec. -/
def fontF : Font := ⟨1⟩

/-- The hypothetical rule table of the nesting example: rule a sets only
color=red, rule b sets only font=F. -/
def tableAB : String → Option Attributes :=
  fun s =>
    if s = "a" then some { color := some Color.RED }
    else if s = "b" then some { font := some fontF }
    else none

/-- Token classifiers for the balance condition on token streams. -/
def isStartTok : Token → Bool
  | .StartSegment _ => true
  | _ => false

def isEndTok : Token → Bool
  | .EndSegment => true
  | _ => false

/-- A text without newline characters splits into the single chunk
consisting of the whole text. -/
theorem splitNewlines_not_mem (t : List Char) (h : '\n' ∉ t) : splitNewlines t = [t] := by
  induction t with
  | nil => rfl
  | cons c tl ih =>
    have hc : ¬c = '\n' := fun hh => h (hh ▸ List.mem_cons_self c tl)
    have htl : '\n' ∉ tl := fun hh => h (List.mem_cons_of_mem c hh)
    simp only [splitNewlines, hc, ite_false, ih htl]

/-- A run without newlines becomes a single piece with no hard break. -/
theorem toPieces_no_newline (t : List Char) (attrs : List Attribute) (h : '\n' ∉ t) :
    toPieces t attrs = [(t, attrs, false)] := by
  simp [toPieces, splitNewlines_not_mem t h]

/-- On the two-character input with the constant-width-5 oracle and
budget 3, the wrap loop re-enters the same scan state forever: it pushes
an empty fragment and a fresh line and restarts at start = end = 0. -/
theorem wrapLoop_constFive_diverges : ∀ (fuel : Nat) (done : List Line),
    wrapLoop measureConstFive 3 (effFont []) ['a', 'b'] [] fuel 0 0 done Line.default =
      .outOfFuel := by
  intro fuel
  induction fuel with
  | zero => intro done; rfl
  | succ fuel ih =>
    intro done
    exact ih (done ++ [⟨1, 5, [([], [], ⟨5, 1⟩)]⟩])

/-- C1: a single styled run whose full measured width equals exactly the
budget W is placed whole on one line with no forced break — proved in
general (first conjunct).  The second half of the claim fails: a run of
measured width W + 1 is wrapped, but the wrap loop drops the final
character of the piece (its break test `end == len - 1` fires before the
last character is flushed).  At budget 1 with the character-count oracle,
the run "ab" (width 2 = W + 1) yields one fragment "a" and an empty
trailing line: a single fragment, and the concatenation of all fragments
is "a", not "ab". -/
theorem C1_exact_fit_whole_overflow_drops :
    (∀ (measure : Font → List Char → Dimen) (W fuel hgt : Nat)
        (text : List Char) (attrs : List Attribute),
      '\n' ∉ text → measure (effFont attrs) text = ⟨W, hgt⟩ →
      layoutRuns measure W fuel [(text, attrs)] =
        .ok [⟨hgt, W, [(text, attrs, ⟨W, hgt⟩)]⟩])
    ∧ layoutRuns measureCharCount 1 100 [("ab".toList, [])] =
        .ok [⟨1, 1, [(['a'], [], ⟨1, 1⟩)]⟩, Line.default]
    ∧ linesText [⟨1, 1, [(['a'], [], ⟨1, 1⟩)]⟩, Line.default] = ['a'] := by
  refine ⟨?_, by decide, by decide⟩
  intro measure W fuel hgt text attrs hnl hm
  simp [layoutRuns, layoutPieces, layoutPiece, toPieces_no_newline _ _ hnl, hm, Line.default]

/-- C1 witness: the exact-fit conjunct applied to the run "ab" with the
character-count oracle and budget 2. -/
theorem C1_witness :
    layoutRuns measureCharCount 2 100 [("ab".toList, [])] =
      .ok [⟨1, 2, [("ab".toList, [], ⟨2, 1⟩)]⟩] :=
  C1_exact_fit_whole_overflow_drops.1 measureCharCount 2 100 1 "ab".toList []
    (by decide) (by decide)

/-- C2: the claim says the greedy wrap scan terminates for every input,
width budget and total measurement oracle, even when one character
exceeds the budget.  It does not: with the constant-width-5 oracle and
budget 3 on the run "ab", the loop never advances (the one-character
slice never fits, so it flushes an empty fragment, opens a fresh line and
restarts with start = end = 0), and the layout answers outOfFuel for
every fuel value — the Rust loop never exits. -/
theorem C2_wrap_loop_diverges : ∀ fuel : Nat,
    layoutRuns measureConstFive 3 fuel [("ab".toList, [])] = .outOfFuel := by
  intro fuel
  simp only [layoutRuns, layoutPieces, layoutPiece]
  rw [if_pos (show Line.default.width + (measureConstFive (effFont []) ['a', 'b']).width > 3
    from by decide)]
  rw [wrapLoop_constFive_diverges fuel []]

/-- C3: tokenizing a plain string (no markup characters) does yield one
Text token per character (third conjunct), but the escape round-trips
fail: on the complete inputs "<<" and "<>" the tokenizer recurses into an
empty string and panics at `&text[1..]` (slice out of bounds) instead of
producing the literal tokens the claim describes. -/
theorem C3_tokenizer_escape_panics :
    tokenize "<<".toList = .error .sliceOOB
    ∧ tokenize "<>".toList = .error .sliceOOB
    ∧ tokenize "plain text".toList =
        .ok ("plain text".toList.map (fun c => Token.Text c.toString)) := by
  refine ⟨by decide, by decide, by decide⟩

/-- C4: parsing "<:x>" does fail with the missing-rule-name panic
(MalformedMarkup).  But "<unknown:x>" and ">" do not reach the
unknown-rule and unbalanced-close panics the claim names: both inputs end
with a '>' whose tokenization recurses into an empty string, so the whole
parse aborts with the slice-out-of-bounds panic of `lmm` first. -/
theorem C4_parse_error_kinds :
    PrettyString.parse "<:x>" = .error .missingRuleName
    ∧ PrettyString.parse "<unknown:x>" = .error .sliceOOB
    ∧ PrettyString.parse ">" = .error .sliceOOB := by
  refine ⟨by decide, by decide, by decide⟩

/-- C5 counterexample: with the rule table of the claim (a maps to
color=red, b maps to font=F), parsing the exact input "<a:<b:X>Y>" does
not produce the two styled runs: the final '>' is tokenized by recursing
into an empty string, so the parse aborts with the slice-out-of-bounds
panic before the run "Y" is ever flushed. -/
theorem C5_counterexample :
    parseWith tableAB "<a:<b:X>Y>" = .error .sliceOOB := by decide

/-- C5 amended: dropping the final close (input "<a:<b:X>Y", on which the
tokenizer succeeds), the Rule Stack is folded in push order with
override_with, so "X" resolves to font=F with color=red (inner b wins on
font, outer a persists on color) and "Y" resolves to the default font
with color=red. -/
theorem C5_nested_styles_amended :
    parseWith tableAB "<a:<b:X>Y" =
      .ok ⟨[("X", { font := some fontF, color := some Color.RED }),
            ("Y", { font := none, color := some Color.RED })]⟩
    ∧ resolve_rules tableAB ["a", "b"] = .ok { font := some fontF, color := some Color.RED }
    ∧ resolve_rules tableAB ["a"] = .ok { font := none, color := some Color.RED } := by
  refine ⟨by decide, by decide, by decide⟩

/-- C7 counterexample: the rule table RULES contains only "blue", so the
example of the claim does not parse: resolving the rule "red" panics
(missing rule) and len is never reached. -/
theorem C7_counterexample :
    PrettyString.parse "ab<red:cd>ef" = .error (.missingRule "red") := by decide

/-- C7 amended: PrettyString.len is the sum over all runs of the
character count of the run text (markup excluded), and on the example
rewritten with the rule that exists ("ab<blue:cd>ef") the parsed length
is 6. -/
theorem C7_len_amended :
    (∀ ps : PrettyString, ps.len = (ps.runs.map (fun r => r.1.length)).sum)
    ∧ (PrettyString.parse "ab<blue:cd>ef").map PrettyString.len = .ok 6 := by
  refine ⟨?_, by decide⟩
  intro ps
  simp [PrettyString.len, List.sum_eq_foldl]

/-- C8: override_with takes each field from the newly applied style when
that style sets it and falls back to the accumulated style otherwise, and
the composition is associative. -/
theorem C8_override_with_fieldwise_assoc :
    ∀ a b c : Attributes,
      ((a.override_with b).font = b.font.or a.font)
      ∧ ((a.override_with b).color = b.color.or a.color)
      ∧ (b.font = none → (a.override_with b).font = a.font)
      ∧ (∀ f, b.font = some f → (a.override_with b).font = some f)
      ∧ (b.color = none → (a.override_with b).color = a.color)
      ∧ (∀ cl, b.color = some cl → (a.override_with b).color = some cl)
      ∧ ((a.override_with b).override_with c = a.override_with (b.override_with c)) := by
  intro a b c
  refine ⟨rfl, rfl, ?_, ?_, ?_, ?_, ?_⟩
  · intro h; simp [Attributes.override_with, h]
  · intro f h; simp [Attributes.override_with, h]
  · intro h; simp [Attributes.override_with, h]
  · intro cl h; simp [Attributes.override_with, h]
  · simp [Attributes.override_with, Option.or_assoc]

/-- C8 witness: the fall-back conjunct at a style that leaves the font
unset, and the associativity conjunct at three concrete styles. -/
theorem C8_witness :
    ((({ font := some fontF } : Attributes).override_with { color := some Color.RED }).font
        = some fontF)
    ∧ ((({} : Attributes).override_with { font := some ⟨2⟩ }).override_with
          { color := some Color.BLUE }
        = ({} : Attributes).override_with
            (({ font := some ⟨2⟩ } : Attributes).override_with { color := some Color.BLUE })) :=
  ⟨(C8_override_with_fieldwise_assoc { font := some fontF } { color := some Color.RED } {}).2.2.1
      rfl,
   (C8_override_with_fieldwise_assoc {} { font := some ⟨2⟩ } { color := some Color.BLUE }).2.2.2.2.2.2⟩

/-- Rule resolution succeeds when every rule on the stack is present in
the table. -/
theorem resolveFrom_ok (table : String → Option Attributes) :
    ∀ (rules : List String) (attrs : Attributes),
      (∀ r ∈ rules, (table r).isSome) →
      ∃ a, resolveFrom table attrs rules = .ok a := by
  intro rules
  induction rules with
  | nil => exact fun attrs _ => ⟨attrs, rfl⟩
  | cons r rs ih =>
    intro attrs h
    have hr : (table r).isSome := h r (List.mem_cons_self r rs)
    cases htr : table r with
    | none => rw [htr] at hr; exact absurd hr (by simp)
    | some a =>
      simp only [resolveFrom, htr]
      exact ih (attrs.override_with a) (fun r2 hr2 => h r2 (List.mem_cons_of_mem r hr2))

/-- The parse driver over a token stream succeeds whenever every opened
rule name is in the table, every rule already on the stack is in the
table, and no prefix of the stream closes more scopes than the stack and
the prefix together have opened.  Open scopes left at the end are never
popped and cause no error. -/
theorem parseTokens_ok (table : String → Option Attributes) :
    ∀ (toks : List Token) (segments : List (String × Attributes))
      (rules : List String) (segment : String),
      (∀ name, Token.StartSegment name ∈ toks → (table name).isSome) →
      (∀ r ∈ rules, (table r).isSome) →
      (∀ n : Nat, (toks.take n).countP isEndTok ≤ (toks.take n).countP isStartTok + rules.length) →
      ∃ ps, parseTokens table toks segments rules segment = .ok ps := by
  intro toks
  induction toks with
  | nil =>
    intro segments rules segment _ hrules _
    simp only [parseTokens, parseFinish]
    by_cases hseg : segment.isEmpty
    · exact ⟨⟨segments⟩, by rw [if_pos hseg]⟩
    · obtain ⟨a, ha⟩ := resolveFrom_ok table rules {} hrules
      rw [if_neg hseg]
      have ha2 : resolve_rules table rules = .ok a := ha
      exact ⟨⟨segments ++ [(segment, a)]⟩, by rw [ha2]⟩
  | cons tok tl ih =>
    intro segments rules segment hnames hrules hbal
    have hnames2 : ∀ name, Token.StartSegment name ∈ tl → (table name).isSome :=
      fun name hm => hnames name (List.mem_cons_of_mem tok hm)
    cases tok with
    | StartSegment name =>
      have hbal2 : ∀ n : Nat,
          (tl.take n).countP isEndTok ≤ (tl.take n).countP isStartTok + (rules ++ [name]).length := by
        intro n
        have := hbal (n + 1)
        rw [List.take_succ_cons,
          List.countP_cons_of_neg isEndTok _ (by simp [isEndTok]),
          List.countP_cons_of_pos isStartTok _ (by simp [isStartTok])] at this
        simpa [Nat.add_comm, Nat.add_assoc, Nat.add_left_comm] using this
      have hname : (table name).isSome := hnames name (List.mem_cons_self _ _)
      have hrules2 : ∀ r ∈ rules ++ [name], (table r).isSome := by
        intro r hr
        rcases List.mem_append.mp hr with hr | hr
        · exact hrules r hr
        · rw [List.mem_singleton.mp hr]; exact hname
      by_cases hseg : segment.isEmpty
      · obtain ⟨ps, hps⟩ := ih segments (rules ++ [name]) segment hnames2 hrules2 hbal2
        exact ⟨ps, by simp only [parseTokens, parseStep, hseg, ite_true]; exact hps⟩
      · obtain ⟨a, ha⟩ := resolveFrom_ok table rules {} hrules
        obtain ⟨ps, hps⟩ :=
          ih (segments ++ [(segment, a)]) (rules ++ [name]) "" hnames2 hrules2 hbal2
        refine ⟨ps, ?_⟩
        simp only [parseTokens, parseStep, hseg, ite_false]
        have ha2 : resolve_rules table rules = .ok a := ha
        rw [ha2]
        exact hps
    | EndSegment =>
      have hlen : 1 ≤ rules.length := by
        have := hbal 1
        simpa [List.countP, List.countP.go, isEndTok, isStartTok] using this
      have hrules2 : ∀ r ∈ rules.dropLast, (table r).isSome :=
        fun r hr => hrules r (List.dropLast_sublist rules |>.mem hr)
      have hbal2 : ∀ n : Nat,
          (tl.take n).countP isEndTok ≤ (tl.take n).countP isStartTok + rules.dropLast.length := by
        intro n
        have := hbal (n + 1)
        rw [List.take_succ_cons,
          List.countP_cons_of_pos isEndTok _ (by simp [isEndTok]),
          List.countP_cons_of_neg isStartTok _ (by simp [isStartTok])] at this
        have hdrop : rules.dropLast.length = rules.length - 1 := List.length_dropLast rules
        omega
      have hne : ¬rules.isEmpty := by
        cases rules with
        | nil => simp at hlen
        | cons r rs => simp
      by_cases hseg : segment.isEmpty
      · obtain ⟨ps, hps⟩ := ih segments rules.dropLast "" hnames2 hrules2 hbal2
        refine ⟨ps, ?_⟩
        simp only [parseTokens, parseStep, hseg, ite_true, hne, ite_false]
        exact hps
      · obtain ⟨a, ha⟩ := resolveFrom_ok table rules {} hrules
        obtain ⟨ps, hps⟩ := ih (segments ++ [(segment, a)]) rules.dropLast "" hnames2 hrules2 hbal2
        refine ⟨ps, ?_⟩
        simp only [parseTokens, parseStep, hseg, ite_false]
        have ha2 : resolve_rules table rules = .ok a := ha
        rw [ha2]
        simp only [hne, ite_false]
        exact hps
    | Text t =>
      have hbal2 : ∀ n : Nat,
          (tl.take n).countP isEndTok ≤ (tl.take n).countP isStartTok + rules.length := by
        intro n
        have := hbal (n + 1)
        rw [List.take_succ_cons,
          List.countP_cons_of_neg isEndTok _ (by simp [isEndTok]),
          List.countP_cons_of_neg isStartTok _ (by simp [isStartTok])] at this
        exact this
      obtain ⟨ps, hps⟩ := ih segments rules (segment ++ t) hnames2 hrules hbal2
      exact ⟨ps, by simp only [parseTokens, parseStep]; exact hps⟩

/-- C9: unclosed open scopes at end of input are silently tolerated.  For
every input whose tokenization succeeds, whose opened rule names are all
in RULES, and in which no prefix of the token stream closes more scopes
than it opens, the parse succeeds — in particular when scopes are still
open at the end of the input, since they are simply never popped. -/
theorem C9_unclosed_scopes_tolerated :
    ∀ (s : String) (toks : List Token),
      tokenize s.toList = .ok toks →
      (∀ name, Token.StartSegment name ∈ toks → (RULES name).isSome) →
      (∀ n : Nat, (toks.take n).countP isEndTok ≤ (toks.take n).countP isStartTok) →
      ∃ ps, PrettyString.parse s = .ok ps := by
  intro s toks htok hnames hbal
  have heq := parseLoop_eq_parseTokens RULES s.toList.length s.toList (Nat.le_refl _)
    toks htok [] [] ""
  have hok := parseTokens_ok RULES toks [] [] "" hnames (by simp)
    (fun n => by simpa using hbal n)
  obtain ⟨ps, hps⟩ := hok
  exact ⟨ps, by rw [PrettyString.parse, parseWith, parseLoop, heq]; exact hps⟩

/-- C9 witness: the input with one unclosed blue scope parses. -/
theorem C9_witness : ∃ ps, PrettyString.parse "<blue:x" = .ok ps :=
  C9_unclosed_scopes_tolerated "<blue:x" [Token.StartSegment "blue", Token.Text "x"]
    (by decide)
    (by
      intro name hmem
      simp only [List.mem_cons, List.not_mem_nil, or_false] at hmem
      rcases hmem with h | h
      · cases h; decide
      · cases h)
    (by
      intro n
      refine Nat.le_trans (Nat.le_trans
        (List.Sublist.countP_le isEndTok (List.take_sublist n _)) ?_) (Nat.zero_le _)
      decide)

/-- A successful parse-driver step only adds nonempty literal segments:
the flush is guarded by the emptiness check. -/
theorem parseStep_nonempty (table : String → Option Attributes) (tok : Token)
    (segments : List (String × Attributes)) (rules : List String) (segment : String)
    (segs2 : List (String × Attributes)) (r2 : List String) (g2 : String)
    (h : parseStep table tok segments rules segment = .ok (segs2, r2, g2))
    (hne : ∀ p ∈ segments, p.1 ≠ "") : ∀ p ∈ segs2, p.1 ≠ "" := by
  have hflush : ∀ (a : Attributes), ¬segment.isEmpty = true →
      ∀ p ∈ segments ++ [(segment, a)], p.1 ≠ "" := by
    intro a hseg p hp
    rcases List.mem_append.mp hp with hp | hp
    · exact hne p hp
    · rw [List.mem_singleton.mp hp]
      intro hh
      exact hseg ((String.isEmpty_iff segment).mpr hh)
  cases tok with
  | StartSegment name =>
    by_cases hseg : segment.isEmpty
    · simp only [parseStep, hseg, ite_true] at h
      injection h with h2
      injection h2 with h3 h4
      subst h3
      exact hne
    · simp only [parseStep, hseg, ite_false] at h
      cases ha : resolve_rules table rules with
      | error e => rw [ha] at h; exact Except.noConfusion h
      | ok a =>
        rw [ha] at h
        injection h with h2
        injection h2 with h3 h4
        subst h3
        exact hflush a hseg
  | EndSegment =>
    simp only [parseStep] at h
    split at h
    · exact Except.noConfusion h
    · rename_i segs3 seg3 heq3
      split at h
      · exact Except.noConfusion h
      · injection h with h2
        injection h2 with h3 h4
        subst h3
        by_cases hseg : segment.isEmpty
        · rw [if_pos hseg] at heq3
          injection heq3 with h5
          injection h5 with h6 h7
          subst h6
          exact hne
        · rw [if_neg hseg] at heq3
          cases ha : resolve_rules table rules with
          | error e => rw [ha] at heq3; exact Except.noConfusion heq3
          | ok a =>
            rw [ha] at heq3
            injection heq3 with h5
            injection h5 with h6 h7
            subst h6
            exact hflush a hseg
  | Text t =>
    simp only [parseStep] at h
    injection h with h2
    injection h2 with h3 h4
    subst h3
    exact hne

/-- The final flush also only adds a nonempty segment. -/
theorem parseFinish_nonempty (table : String → Option Attributes)
    (segments : List (String × Attributes)) (rules : List String) (segment : String)
    (ps : PrettyString) (h : parseFinish table segments rules segment = .ok ps)
    (hne : ∀ p ∈ segments, p.1 ≠ "") : ∀ p ∈ ps.runs, p.1 ≠ "" := by
  by_cases hseg : segment.isEmpty
  · simp only [parseFinish, hseg, ite_true] at h
    injection h with h2
    subst h2
    exact hne
  · simp only [parseFinish, hseg, ite_false] at h
    cases ha : resolve_rules table rules with
    | error e => rw [ha] at h; exact Except.noConfusion h
    | ok a =>
      rw [ha] at h
      injection h with h2
      subst h2
      intro p hp
      rcases List.mem_append.mp hp with hp | hp
      · exact hne p hp
      · rw [List.mem_singleton.mp hp]
        intro hh
        exact hseg ((String.isEmpty_iff segment).mpr hh)

/-- Invariant of the whole parse loop: starting from an accumulator of
nonempty segments, every run of a successful parse is nonempty. -/
theorem parseLoopAux_nonempty (table : String → Option Attributes) :
    ∀ (fuel : Nat) (text : List Char) (hf : text.length ≤ fuel)
      (segments : List (String × Attributes)) (rules : List String) (segment : String)
      (ps : PrettyString),
      parseLoopAux table fuel text hf segments rules segment = .ok ps →
      (∀ p ∈ segments, p.1 ≠ "") → ∀ p ∈ ps.runs, p.1 ≠ "" := by
  intro fuel
  induction fuel with
  | zero =>
    intro text hf segments rules segment ps h hne
    have : text = [] := List.eq_nil_of_length_eq_zero (Nat.le_zero.mp hf)
    subst this
    exact parseFinish_nonempty table segments rules segment ps h hne
  | succ fuel ih =>
    intro text hf segments rules segment ps h hne
    cases text with
    | nil => exact parseFinish_nonempty table segments rules segment ps h hne
    | cons hd tla =>
      rw [parseLoopAux] at h
      split at h
      · exact Except.noConfusion h
      · rename_i tok rest heq
        split at h
        · exact Except.noConfusion h
        · rename_i s2 r2 g2 hstep
          exact ih rest _ s2 r2 g2 ps h
            (parseStep_nonempty table tok segments rules segment s2 r2 g2 hstep hne)

/-- C10: every run of a successfully parsed PrettyString has nonempty
text: the parse driver flushes the literal buffer only when it is
nonempty, so no run with empty text is ever pushed. -/
theorem C10_parse_runs_nonempty :
    ∀ (s : String) (ps : PrettyString), PrettyString.parse s = .ok ps →
      ∀ p ∈ ps.runs, p.1 ≠ "" :=
  fun s ps h =>
    parseLoopAux_nonempty RULES s.toList.length s.toList (Nat.le_refl _) [] [] "" ps h
      (by simp)

/-- C10 witness: the parse of "ab" produces the single run "ab", and the
theorem instantiated there shows its text is nonempty. -/
theorem C10_witness :
    PrettyString.parse "ab" = .ok ⟨[("ab", {})]⟩ ∧ ("ab", ({} : Attributes)).1 ≠ "" :=
  ⟨by decide,
   C10_parse_runs_nonempty "ab" ⟨[("ab", {})]⟩ (by decide) ("ab", {}) (by simp)⟩

/-- Prefixing a list of finished lines onto a layout outcome.  The layout
functions only ever append to the finished lines, so running them with a
nonempty done-list is the same as running them on an empty one and
prefixing (the localization lemmas below). -/
def LayoutRes.prepend (done : List Line) :
    LayoutRes (List Line × Line) → LayoutRes (List Line × Line)
  | .ok (d, c) => .ok (done ++ d, c)
  | .outOfFuel => .outOfFuel
  | .panicked => .panicked

theorem LayoutRes.prepend_prepend (d1 d2 : List Line) (r : LayoutRes (List Line × Line)) :
    LayoutRes.prepend d1 (LayoutRes.prepend d2 r) = LayoutRes.prepend (d1 ++ d2) r := by
  cases r with
  | ok out => cases out; simp [LayoutRes.prepend]
  | outOfFuel => rfl
  | panicked => rfl

/-- The wrap loop reads the finished lines only to append to them. -/
theorem wrapLoop_localize (measure : Font → List Char → Dimen) (maxWidth : Nat)
    (font : Font) (text : List Char) (attrs : List Attribute) :
    ∀ (fuel start end_ : Nat) (done : List Line) (cur : Line),
      wrapLoop measure maxWidth font text attrs fuel start end_ done cur =
        LayoutRes.prepend done
          (wrapLoop measure maxWidth font text attrs fuel start end_ [] cur) := by
  intro fuel
  induction fuel with
  | zero => intro start end_ done cur; rfl
  | succ fuel ih =>
    intro start end_ done cur
    simp only [wrapLoop]
    by_cases c1 : end_ + 1 > text.length
    · simp only [if_pos c1]
      rfl
    · simp only [if_neg c1]
      by_cases c2 : (cur.width + (measure font (strSlice text start (end_ + 1))).width ≤ maxWidth)
          ∧ (end_ + 1 ≠ text.length - 1)
      · simp only [if_pos c2]
        exact ih start (end_ + 1) done cur
      · simp only [if_neg c2]
        by_cases c3 : (if cur.width + (measure font (strSlice text start (end_ + 1))).width ≤ maxWidth
            then end_ + 1 else end_) = text.length - 1
        · simp only [if_pos c3]
          simp [LayoutRes.prepend]
        · simp only [if_neg c3]
          generalize (if cur.width + (measure font (strSlice text start (end_ + 1))).width ≤ maxWidth
            then end_ + 1 else end_) = e
          generalize (⟨Nat.max cur.height (measure font (strSlice text start (end_ + 1))).height,
            cur.width + (measure font (strSlice text start (end_ + 1))).width,
            cur.segments ++ [(strSlice text start e, attrs,
              measure font (strSlice text start (end_ + 1)))]⟩ : Line) = cur2
          rw [ih e e (done ++ [cur2]) Line.default, ih e e ([] ++ [cur2]) Line.default,
            LayoutRes.prepend_prepend]
          simp

/-- Laying out one piece reads the finished lines only to append. -/
theorem layoutPiece_localize (measure : Font → List Char → Dimen) (maxWidth fuel : Nat)
    (piece : List Char × List Attribute × Bool) (done : List Line) (cur : Line) :
    layoutPiece measure maxWidth fuel piece done cur =
      LayoutRes.prepend done (layoutPiece measure maxWidth fuel piece [] cur) := by
  obtain ⟨text, attrs, newline⟩ := piece
  simp only [layoutPiece]
  by_cases cfit : cur.width + (measure (effFont attrs) text).width > maxWidth
  · simp only [if_pos cfit]
    rw [wrapLoop_localize measure maxWidth (effFont attrs) text attrs fuel 0 0 done cur]
    cases hw : wrapLoop measure maxWidth (effFont attrs) text attrs fuel 0 0 [] cur with
    | ok out =>
      obtain ⟨d2, c2⟩ := out
      cases newline <;> simp [LayoutRes.prepend]
    | outOfFuel => rfl
    | panicked => rfl
  · simp only [if_neg cfit]
    cases newline <;> simp [LayoutRes.prepend]

/-- Laying out a list of pieces reads the finished lines only to append. -/
theorem layoutPieces_localize (measure : Font → List Char → Dimen) (maxWidth fuel : Nat) :
    ∀ (pieces : List (List Char × List Attribute × Bool)) (done : List Line) (cur : Line),
      layoutPieces measure maxWidth fuel pieces done cur =
        LayoutRes.prepend done (layoutPieces measure maxWidth fuel pieces [] cur) := by
  intro pieces
  induction pieces with
  | nil => intro done cur; simp [layoutPieces, LayoutRes.prepend]
  | cons p ps ih =>
    intro done cur
    simp only [layoutPieces]
    rw [layoutPiece_localize measure maxWidth fuel p done cur]
    cases hp : layoutPiece measure maxWidth fuel p [] cur with
    | ok out =>
      obtain ⟨d2, c2⟩ := out
      show layoutPieces measure maxWidth fuel ps (done ++ d2) c2 =
        LayoutRes.prepend done (layoutPieces measure maxWidth fuel ps d2 c2)
      rw [ih (done ++ d2) c2, ih d2 c2, LayoutRes.prepend_prepend]
    | outOfFuel => rfl
    | panicked => rfl

/-- A piece carrying the hard-break flag leaves a fresh current line. -/
theorem layoutPiece_newline_default (measure : Font → List Char → Dimen)
    (maxWidth fuel : Nat) (text : List Char) (attrs : List Attribute)
    (done : List Line) (cur : Line) (d : List Line) (c : Line)
    (h : layoutPiece measure maxWidth fuel (text, attrs, true) done cur = .ok (d, c)) :
    c = Line.default := by
  simp only [layoutPiece] at h
  split at h
  · rename_i out done2 cur2
    simp only [ite_true] at h
    injection h with h2
    injection h2 with h3 h4
    exact h4.symm
  · exact LayoutRes.noConfusion h
  · exact LayoutRes.noConfusion h

/-- Splitting at newlines, with the first chunk made explicit. -/
theorem splitNewlines_append (A B : List Char) (hA : '\n' ∉ A) :
    splitNewlines (A ++ '\n' :: B) = A :: splitNewlines B := by
  induction A with
  | nil => simp [splitNewlines]
  | cons c tl ih =>
    have hc : ¬c = '\n' := fun hh => hA (hh ▸ List.mem_cons_self c tl)
    have htl : '\n' ∉ tl := fun hh => hA (List.mem_cons_of_mem c hh)
    simp only [List.cons_append, splitNewlines, hc, ite_false, List.append_eq]
    rw [ih htl]

/-- A run with exactly one newline splits into the two chunks around it,
the first carrying the hard-break flag. -/
theorem toPieces_hard_break (A B : List Char) (attrs : List Attribute)
    (hA : '\n' ∉ A) (hB : '\n' ∉ B) :
    toPieces (A ++ '\n' :: B) attrs = [(A, attrs, true), (B, attrs, false)] := by
  simp [toPieces, splitNewlines_append A B hA, splitNewlines_not_mem B hB, List.enum]

/-- Splitting never produces an empty chunk list. -/
theorem splitNewlines_ne_nil (t : List Char) : splitNewlines t ≠ [] := by
  induction t with
  | nil => simp [splitNewlines]
  | cons c tl ih =>
    by_cases hc : c = '\n'
    · simp [splitNewlines, hc]
    · simp only [splitNewlines, hc, ite_false]
      cases h : splitNewlines tl with
      | nil => simp
      | cons p ps => simp

/-- The number of chunks is the newline count plus one. -/
theorem splitNewlines_length (t : List Char) :
    (splitNewlines t).length = t.count '\n' + 1 := by
  induction t with
  | nil => rfl
  | cons c tl ih =>
    by_cases hc : c = '\n'
    · subst hc
      simp [splitNewlines, ih, List.count_cons]
    · simp only [splitNewlines, hc, ite_false]
      cases h : splitNewlines tl with
      | nil => exact absurd h (splitNewlines_ne_nil tl)
      | cons p ps =>
        rw [h] at ih
        simp only [List.length_cons] at ih ⊢
        rw [ih]
        simp [List.count_cons, hc]

/-- The hard-break flag of the i-th sub-piece is exactly `i != len - 1`. -/
theorem toPieces_flags (t : List Char) (attrs : List Attribute) (i : Nat)
    (h : i < (toPieces t attrs).length) :
    ((toPieces t attrs).get ⟨i, h⟩).2.2 = decide (i ≠ (toPieces t attrs).length - 1) := by
  simp [toPieces, List.get_eq_getElem, List.getElem_map, List.getElem_enum]

/-- C6: a run with k embedded newlines is split into k + 1 sub-pieces
and a hard line break is forced after every sub-piece except the last
(first conjunct: piece count and flags).  Moreover the break is honoured
regardless of width budget and measurement oracle: whenever the layout of
a single run "A\nB" (A, B newline-free) succeeds, the produced lines
decompose as the lines laid out for A alone (ending in the fresh line
opened by the hard break, absorbed into the B part) followed by the lines
laid out for B alone starting from a fresh empty line — so no fragment of
B shares a line with any fragment of A (second conjunct). -/
theorem C6_newline_hard_break :
    (∀ (t : List Char) (attrs : List Attribute),
      (toPieces t attrs).length = t.count '\n' + 1
      ∧ ∀ (i : Nat) (h : i < (toPieces t attrs).length),
          ((toPieces t attrs).get ⟨i, h⟩).2.2 = decide (i ≠ (toPieces t attrs).length - 1))
    ∧ ∀ (measure : Font → List Char → Dimen) (W fuel : Nat) (A B : List Char)
        (attrs : List Attribute) (ls : List Line),
        '\n' ∉ A → '\n' ∉ B →
        layoutRuns measure W fuel [(A ++ '\n' :: B, attrs)] = .ok ls →
        ∃ dA dB cB,
          layoutPiece measure W fuel (A, attrs, true) [] Line.default = .ok (dA, Line.default)
          ∧ layoutPiece measure W fuel (B, attrs, false) [] Line.default = .ok (dB, cB)
          ∧ ls = dA ++ (dB ++ [cB]) := by
  constructor
  · intro t attrs
    refine ⟨?_, toPieces_flags t attrs⟩
    simp [toPieces, splitNewlines_length]
  · intro measure W fuel A B attrs ls hA hB h
    simp only [layoutRuns, List.map, List.flatten, List.append_nil] at h
    rw [toPieces_hard_break A B attrs hA hB] at h
    simp only [layoutPieces] at h
    split at h
    · rename_i done cur heq
      injection h with h2
      split at heq
      · rename_i dA2 cA2 hA1
        have hcA : cA2 = Line.default :=
          layoutPiece_newline_default measure W fuel A attrs [] Line.default dA2 cA2 hA1
        subst hcA
        split at heq
        · rename_i dB2 cB2 hB1
          injection heq with heq2
          injection heq2 with heq3 heq4
          subst heq3
          subst heq4
          rw [layoutPiece_localize measure W fuel (B, attrs, false) dA2 Line.default] at hB1
          cases hB2 : layoutPiece measure W fuel (B, attrs, false) [] Line.default with
          | outOfFuel => rw [hB2] at hB1; exact LayoutRes.noConfusion hB1
          | panicked => rw [hB2] at hB1; exact LayoutRes.noConfusion hB1
          | ok outB =>
            obtain ⟨dB3, cB3⟩ := outB
            rw [hB2] at hB1
            simp only [LayoutRes.prepend] at hB1
            injection hB1 with hB3
            injection hB3 with hB4 hB5
            subst hB4
            subst hB5
            exact ⟨dA2, dB3, cB3, hA1, rfl, by rw [← h2]; simp⟩
        · exact LayoutRes.noConfusion heq
        · exact LayoutRes.noConfusion heq
      · exact LayoutRes.noConfusion heq
      · exact LayoutRes.noConfusion heq
    · exact LayoutRes.noConfusion h
    · exact LayoutRes.noConfusion h

/-- C6 witness: the break-honouring conjunct applied to the run "x\ny"
with the character-count oracle at budget 10. -/
theorem C6_witness :
    ∃ dA dB cB,
      layoutPiece measureCharCount 10 100 (['x'], [], true) [] Line.default =
        .ok (dA, Line.default)
      ∧ layoutPiece measureCharCount 10 100 (['y'], [], false) [] Line.default = .ok (dB, cB)
      ∧ [⟨1, 1, [(['x'], [], ⟨1, 1⟩)]⟩, ⟨1, 1, [(['y'], [], ⟨1, 1⟩)]⟩] = dA ++ (dB ++ [cB]) :=
  C6_newline_hard_break.2 measureCharCount 10 100 ['x'] ['y'] []
    [⟨1, 1, [(['x'], [], ⟨1, 1⟩)]⟩, ⟨1, 1, [(['y'], [], ⟨1, 1⟩)]⟩]
    (by decide) (by decide) (by decide)
